import Mathlib

set_option maxRecDepth 8000

namespace SS

/-!
Shallow embedding of the S-S cryptosystem sources (src/numtheory.c, src/ss.c).

mpz_t values are modelled as Int where signs can occur (mod_inverse, pow_mod)
and as Nat where every call site passes nonnegative values.  Every C while-loop
is modelled as a structural recursion on an explicit fuel argument so that the
kernel can evaluate the functions on concrete inputs; each top-level wrapper
passes fuel that provably dominates the iteration count of the loop, so the
wrapper computes the same value as the (terminating runs of the) C loop.
Random draws from the global gmp_randstate are modelled as explicit streams of
naturals: mpz_urandomm(x, state, m) becomes `stream i % m`, mpz_urandomb(x,
state, b) becomes `stream i % 2^b`, quantifying over all streams covers every
behaviour of the generator.
-/

/-- Loop of `gcd` (src/numtheory.c:20-36): Euclidean algorithm.  mpz_mod yields
a nonnegative remainder; both call sites pass nonnegative arguments, so the
loop is modelled on Nat.  The second argument strictly decreases after the
first step, hence fuel `b+1` in the wrapper below always suffices. -/
def gcd_loop : Nat → Nat → Nat → Nat
  | 0, a, _ => a
  | fuel+1, a, b => if b = 0 then a else gcd_loop fuel b (a % b)

/-- `gcd` from src/numtheory.c:20. -/
def gcd (a b : Nat) : Nat := gcd_loop (b + 1) a b

/-- Loop of `pow_mod` (src/numtheory.c:98-124): right-to-left binary
exponentiation.  mpz_mod returns a nonnegative remainder (the sign of the
divisor is ignored), which is Int.emod for the positive moduli used; the
exponent update mpz_fdiv_q_ui(e, e, 2) equals `expo / 2` on the positive
values reachable in the loop.  The exponent at least halves every iteration,
so fuel `expo.toNat + 1` dominates the iteration count. -/
def pow_mod_loop (modulus : Int) : Nat → Int → Int → Int → Int
  | 0, result, _, _ => result
  | fuel+1, result, base, expo =>
    if expo ≤ 0 then result
    else
      pow_mod_loop modulus fuel
        (if expo % 2 ≠ 0 then result * base % modulus else result)
        (base * base % modulus) (expo / 2)

/-- `pow_mod` from src/numtheory.c:98. -/
def pow_mod (base expo modulus : Int) : Int :=
  pow_mod_loop modulus (expo.toNat + 1) 1 base expo

/-- Loop of `mod_inverse` (src/numtheory.c:47-86): extended Euclid on the pair
(cur_modulus, cur_value) starting from (modulus, value), with quotients from
mpz_fdiv_q (floor division) and the running Bezout coefficients of `value`
(coef_modulus, coef_value) starting from (0, 1).  Returns the final
(cur_modulus, coef_modulus).  |cur_value| strictly decreases every iteration
(floored remainder), so fuel `value.natAbs + 1` dominates. -/
def mod_inverse_loop : Nat → Int → Int → Int → Int → Int × Int
  | 0, cur_m, _, coef_m, _ => (cur_m, coef_m)
  | fuel+1, cur_m, cur_v, coef_m, coef_v =>
    if cur_v = 0 then (cur_m, coef_m)
    else
      mod_inverse_loop fuel cur_v (cur_m - cur_m.fdiv cur_v * cur_v)
        coef_v (coef_m - cur_m.fdiv cur_v * coef_v)

/-- `mod_inverse` from src/numtheory.c:47: run the loop, then return 0 when the
final cur_modulus exceeds 1 (no inverse), else coef_modulus shifted by the
modulus once when negative. -/
def mod_inverse (value modulus : Int) : Int :=
  let r := mod_inverse_loop (value.natAbs + 1) modulus value 0 1
  if 1 < r.1 then 0
  else if r.2 < 0 then r.2 + modulus
  else r.2

/-- The s-finding loop of `is_prime` (src/numtheory.c:147-157): the least s ≥ 1
with (number−1) >> s odd.  For the even number−1 ≥ 2 reachable there this is
the exponent of 2 in number−1, computed here by a fueled division loop
(number−1 halvings always suffice). -/
def twoAdic_loop : Nat → Nat → Nat
  | 0, _ => 0
  | fuel+1, m => if m % 2 = 0 ∧ m ≠ 0 then twoAdic_loop fuel (m / 2) + 1 else 0

/-- Exponent of 2 in m (0 for m = 0). -/
def twoAdic (m : Nat) : Nat := twoAdic_loop m m

/-- The squaring loop of one Miller-Rabin round (src/numtheory.c:179-190):
up to s−1 squarings of the witness, stopping early at number−1; reaching 1
proves the number composite immediately (`none`). -/
def miller_squarings (number : Int) : Nat → Int → Option Int
  | 0, w => some w
  | count+1, w =>
    if w = number - 1 then some w
    else
      let w2 := pow_mod w 2 number
      if w2 = 1 then none else miller_squarings number count w2

/-- One Miller-Rabin round of `is_prime` (src/numtheory.c:166-197) with random
draw b: the C code draws mpz_urandomm(base, state, number−4) and adds 2.
GMP's mpz_urandomm uses the absolute value of its bound (so for number = 3 the
bound −1 yields the single value 0); the draw is modelled as
b % |number−4|. -/
def miller_round (number s r b : Nat) : Bool :=
  let base : Int := ((b % ((number : Int) - 4).natAbs : Nat) : Int) + 2
  let w := pow_mod base (r : Int) (number : Int)
  if w = 1 ∨ w = (number : Int) - 1 then true
  else
    match miller_squarings (number : Int) (s - 1) w with
    | none => false
    | some w2 => decide (w2 = (number : Int) - 1)

/-- The iteration loop of `is_prime` (src/numtheory.c:166): round i uses draw
`draws i`; false as soon as one round fails. -/
def miller_rounds (number s r : Nat) (draws : Nat → Nat) : Nat → Nat → Bool
  | _, 0 => true
  | i, k+1 => miller_round number s r (draws i) && miller_rounds number s r draws (i + 1) k

/-- `is_prime` from src/numtheory.c:137-202, with the Miller-Rabin witness
draws supplied by the explicit stream `draws` in place of the global random
state. -/
def is_prime (number iterations : Nat) (draws : Nat → Nat) : Bool :=
  if number = 1 then false
  else if number = 2 then true
  else if number % 2 = 0 then false
  else
    let s := twoAdic (number - 1)
    let r := (number - 1) / 2 ^ s
    miller_rounds number s r draws 0 iterations

/-- Loop of `make_prime` (src/numtheory.c:222-229): the running value starts at
0, is tested by `is_prime`, and while the test fails is replaced by a fresh
bits-bit draw (`cand i % 2^bits`, modelling mpz_urandomb) plus the floor
2^(bits−1).  `wits i` is the witness-draw stream of the i-th `is_prime` call
(the C code interleaves all draws on one shared stream; one stream per call
ranges over the same set of behaviours).  Fuel bounds the number of attempts;
the C loop has no cap and terminates only probabilistically. -/
def make_prime_loop (bits iterations : Nat) (cand : Nat → Nat) (wits : Nat → Nat → Nat) :
    Nat → Nat → Nat → Option Nat
  | 0, _, _ => none
  | fuel+1, i, cur =>
    if is_prime cur iterations (wits i) then some cur
    else make_prime_loop bits iterations cand wits fuel (i + 1) (cand i % 2 ^ bits + 2 ^ (bits - 1))

/-- `make_prime` from src/numtheory.c:212-233. -/
def make_prime (bits iterations : Nat) (cand : Nat → Nat) (wits : Nat → Nat → Nat)
    (fuel : Nat) : Option Nat :=
  make_prime_loop bits iterations cand wits fuel 0 0

/-- The halve-and-count loop of ss_encrypt_file (src/ss.c:179-182) and
ss_decrypt_file (src/ss.c:247-250): number of halvings of x until it reaches 0
(the bit length of x for x ≥ 1).  Fuel x dominates since the count is at most
log2 x + 1 ≤ x for x ≥ 1. -/
def bit_halvings_loop : Nat → Nat → Nat
  | 0, _ => 0
  | fuel+1, x => if x = 0 then 0 else bit_halvings_loop fuel (x / 2) + 1

/-- Number of halvings of x until 0. -/
def bit_halvings (x : Nat) : Nat := bit_halvings_loop x x

/-- mpz_sqrt (GMP, external dependency): truncated integer square root, set up
as a bitwise binary search so the kernel can evaluate it; theorem
mpz_sqrt_eq_sqrt below proves it equal to Nat.sqrt. -/
def isqrtAux (n : Nat) : Nat → Nat → Nat
  | 0, acc => acc
  | k+1, acc =>
    if (acc + 2 ^ k) * (acc + 2 ^ k) ≤ n then isqrtAux n k (acc + 2 ^ k)
    else isqrtAux n k acc

/-- Integer square root. -/
def mpz_sqrt (n : Nat) : Nat := isqrtAux n (bit_halvings n) 0

/-- The block size computation shared by ss_encrypt_file (src/ss.c:178-184) and
ss_decrypt_file (src/ss.c:246-252): count halvings of the modulus until 0 into
a uint16_t, decrement, divide by 8.  block_size is uint16_t, so the decrement
of 0 and any overflow of the count wrap mod 2^16. -/
def block_size_of (m : Nat) : Nat := (bit_halvings m % 65536 + 65535) % 65536 / 8

/-- Encrypt-side block size (src/ss.c:173-184), from ⌊√n⌋. -/
def ss_enc_block_size (n : Nat) : Nat := block_size_of (mpz_sqrt n)

/-- Decrypt-side block size (src/ss.c:241-252), from pq. -/
def ss_dec_block_size (pq : Nat) : Nat := block_size_of pq

/-- mpz_import with count=block_size, order=1, size=1, endian=1, nails=0
(src/ss.c:202): the bytes are read as one big-endian number. -/
def mpz_import_be (bytes : List Nat) : Nat := bytes.foldl (fun acc b => acc * 256 + b) 0

/-- Digit loop for mpz_export (least significant byte first); fuel m dominates
the number of base-256 digits of m. -/
def export_le_loop : Nat → Nat → List Nat
  | 0, _ => []
  | fuel+1, m => if m = 0 then [] else m % 256 :: export_le_loop fuel (m / 256)

/-- mpz_export with order=1, size=1, endian=1, nails=0 (src/ss.c:270): the
minimal big-endian byte string of m (count 0, i.e. the empty string, for
m = 0). -/
def mpz_export_be (m : Nat) : List Nat := (export_le_loop m m).reverse

/-- mpz_powm (GMP, external dependency): modular exponentiation, set up as a
fueled square-and-multiply so the kernel can evaluate it; theorem mpz_powm_eq
below proves mpz_powm b e m = b ^ e % m for 0 < m. -/
def powm_loop (modulus : Nat) : Nat → Nat → Nat → Nat → Nat
  | 0, acc, _, _ => acc
  | fuel+1, acc, base, e =>
    if e = 0 then acc
    else
      powm_loop modulus fuel (if e % 2 = 1 then acc * base % modulus else acc)
        (base * base % modulus) (e / 2)

/-- b^e mod m. -/
def mpz_powm (base e modulus : Nat) : Nat := powm_loop modulus (e + 1) (1 % modulus) base e

/-- ss_encrypt (src/ss.c:158-161): c = m^n mod n, exponent = modulus. -/
def ss_encrypt (m n : Nat) : Nat := mpz_powm m n n

/-- The block-reading loop of ss_encrypt_file (src/ss.c:186-210), producing the
framed block integers: each iteration reads up to block_size−1 bytes from the
input, stops (emitting nothing) on a zero-length read, and otherwise imports
the calloc'd block [0xFF, chunk, zero padding] of block_size bytes.  Each
iteration that recurses consumes at least one input byte, so fuel
`input.length + 1` dominates. -/
def ss_encrypt_blocks (bs : Nat) : Nat → List Nat → List Nat
  | 0, _ => []
  | fuel+1, input =>
    let chunk := input.take (bs - 1)
    if chunk.length = 0 then []
    else
      mpz_import_be (0xFF :: (chunk ++ List.replicate (bs - 1 - chunk.length) 0))
        :: ss_encrypt_blocks bs fuel (input.drop (bs - 1))

/-- ss_encrypt_file (src/ss.c:172-213): the emitted ciphertext tokens, one
m^n mod n per framed block. -/
def ss_encrypt_file (n : Nat) (input : List Nat) : List Nat :=
  (ss_encrypt_blocks (ss_enc_block_size n) (input.length + 1) input).map
    (fun m => ss_encrypt m n)

/-- ss_decrypt (src/ss.c:224-227): m = c^d mod pq. -/
def ss_decrypt (c d pq : Nat) : Nat := mpz_powm c d pq

/-- The bytes ss_decrypt_file writes for one decrypted block m
(src/ss.c:266-273): mpz_export fills the calloc'd buffer with the minimal
big-endian encoding of m (decrypted_size bytes) and fwrite emits
decrypted_size−1 bytes starting at offset 1, i.e. the export minus its first
byte.  For m = 0 the count decrypted_size−1 underflows size_t in C; that case
(unreachable from well-formed ciphertext) is modelled as writing nothing. -/
def ss_write_block (m : Nat) : List Nat := (mpz_export_be m).drop 1

/-- The token loop of ss_decrypt_file (src/ss.c:257-278) over a pre-tokenised
ciphertext stream: `some c` is a token gmp_fscanf parses as hex to c, `none` a
token that fails to parse.  gmp_fscanf returns −1 only at end of input, and on
a matching failure returns 0 without consuming the offending token, so the C
loop breaks only at end of input; on a malformed token it keeps the previous
value of the ciphertext variable (`cur`, 0 initially from mpz_inits), decrypts
it again, and iterates on the same unconsumed input.  `none` as a result means
the fuel ran out before the loop reached end of input. -/
def ss_decrypt_file_loop (d pq : Nat) :
    Nat → Nat → List (Option Nat) → List Nat → Option (List Nat)
  | 0, _, _, _ => none
  | fuel+1, cur, input, out =>
    match input with
    | [] => some out
    | some c :: rest =>
      ss_decrypt_file_loop d pq fuel c rest (out ++ ss_write_block (ss_decrypt c d pq))
    | none :: rest =>
      ss_decrypt_file_loop d pq fuel cur (none :: rest)
        (out ++ ss_write_block (ss_decrypt cur d pq))

/-- ss_decrypt_file (src/ss.c:239-280): runs the token loop with fuel one past
the stream length, which suffices exactly when every token parses; with a
malformed token the C loop runs forever (claim C4), which surfaces here as the
fuel running out for every choice of fuel. -/
def ss_decrypt_file (d pq : Nat) (input : List (Option Nat)) : Option (List Nat) :=
  ss_decrypt_file_loop d pq (input.length + 1) 0 input []

/-- The accept loop of ss_make_pub (src/ss.c:31-54): attempt i draws a bit size
for p and two make_prime outputs; the pair produced by attempt i is abstracted
as `attempts i` (the drawing itself is modelled by make_prime above), and the
loop restarts from scratch until (q−1) mod p ≠ 0 and (p−1) mod q ≠ 0, then
outputs (p, q, n = p²·q) (src/ss.c:56-57). -/
def ss_make_pub_loop (attempts : Nat → Nat × Nat) : Nat → Nat → Option (Nat × Nat × Nat)
  | 0, _ => none
  | fuel+1, i =>
    if (((attempts i).2 - 1) % (attempts i).1 ≠ 0 ∧ ((attempts i).1 - 1) % (attempts i).2 ≠ 0) then
      some ((attempts i).1, (attempts i).2, (attempts i).1 * (attempts i).1 * (attempts i).2)
    else ss_make_pub_loop attempts fuel (i + 1)

/-- ss_make_pub from src/ss.c:19-62 over the attempt oracle. -/
def ss_make_pub (attempts : Nat → Nat × Nat) (fuel : Nat) : Option (Nat × Nat × Nat) :=
  ss_make_pub_loop attempts fuel 0

/-- The modulus recomputed inside ss_make_priv (src/ss.c:81-82):
modulus_pq = p·q, then n = modulus_pq·p. -/
def ss_make_priv_n (p q : Nat) : Nat := p * q * p

/-- λ = (p−1)·(q−1) / gcd(p−1, q−1) as computed by ss_make_priv
(src/ss.c:84-91), calling the repository's gcd; mpz_divexact is ordinary
division here since gcd(p−1,q−1) divides (p−1)(q−1). -/
def ss_lambda (p q : Nat) : Nat := (p - 1) * (q - 1) / gcd (p - 1) (q - 1)

/-- ss_make_priv (src/ss.c:73-99): returns (d, pq) with
d = mod_inverse(n, λ); the result of mod_inverse on these nonnegative
arguments is nonnegative, and its Nat value is taken. -/
def ss_make_priv (p q : Nat) : Nat × Nat :=
  ((mod_inverse (ss_make_priv_n p q) (ss_lambda p q)).toNat, p * q)

/-- The postcondition of ss_make_pub (src/ss.c:19-62) describing a generated
key pair (p, q) for parameters total_bits and the drawn bit size p_bits:
p_bits lies in the range sampled at src/ss.c:33, p and q are primes produced
by make_prime for bit sizes p_bits and total_bits − sizeinbase(p², 2)
(src/ss.c:40-44), so each lies in [2^(bits−1), 2^(bits−1) + 2^bits) by the
floor construction of make_prime, the accept conditions of src/ss.c:51 hold,
and p ≠ q (spec §3 lists distinctness as a data-model invariant of generated
pairs).  Primality stands in for the is_prime certificate. -/
def SSKeyGen (total_bits p_bits p q : Nat) : Prop :=
  total_bits / 5 ≤ p_bits ∧ p_bits ≤ 2 * total_bits / 5 ∧
  Nat.Prime p ∧ 2 ^ (p_bits - 1) ≤ p ∧ p < 2 ^ (p_bits - 1) + 2 ^ p_bits ∧
  Nat.Prime q ∧ 2 ^ (total_bits - bit_halvings (p * p) - 1) ≤ q ∧
  q < 2 ^ (total_bits - bit_halvings (p * p) - 1) + 2 ^ (total_bits - bit_halvings (p * p)) ∧
  (q - 1) % p ≠ 0 ∧ (p - 1) % q ≠ 0 ∧ p ≠ q

/-! ### Bridges from the fueled loops to Mathlib's functions -/

theorem gcd_loop_eq : ∀ fuel a b, b < fuel → gcd_loop fuel a b = Nat.gcd a b := by
  intro fuel
  induction fuel with
  | zero => intro a b h; omega
  | succ f ih =>
    intro a b h
    by_cases hb : b = 0
    · subst hb; simp [gcd_loop]
    · rw [gcd_loop, if_neg hb, ih b (a % b) (by have := Nat.mod_lt a (Nat.pos_of_ne_zero hb); omega)]
      rw [Nat.gcd_comm a b, Nat.gcd_rec b a, Nat.gcd_comm (a % b) b]

/-- The repository's gcd computes the mathematical gcd on naturals. -/
theorem gcd_eq (a b : Nat) : gcd a b = Nat.gcd a b :=
  gcd_loop_eq (b + 1) a b (Nat.lt_succ_self b)

theorem size_div_two (x : Nat) (hx : x ≠ 0) : Nat.size x = Nat.size (x / 2) + 1 := by
  refine le_antisymm ?_ ?_
  · rw [Nat.size_le, pow_succ]
    have h1 : x / 2 < 2 ^ Nat.size (x / 2) := Nat.lt_size_self (x / 2)
    omega
  · have hsx : 0 < Nat.size x := Nat.size_pos.mpr (Nat.pos_of_ne_zero hx)
    rcases Nat.eq_zero_or_pos (x / 2) with h2 | h2
    · simp [h2]; omega
    · have hy : Nat.size (x / 2) - 1 < Nat.size (x / 2) := by
        have := Nat.size_pos.mpr h2; omega
      have h3 : 2 ^ (Nat.size (x / 2) - 1) ≤ x / 2 := Nat.lt_size.mp hy
      have h4 : Nat.size (x / 2) < Nat.size x := by
        rw [Nat.lt_size]
        have hs : 0 < Nat.size (x / 2) := Nat.size_pos.mpr h2
        calc 2 ^ Nat.size (x / 2) = 2 * 2 ^ (Nat.size (x / 2) - 1) := by
              rw [← pow_succ']; congr 1; omega
          _ ≤ 2 * (x / 2) := by omega
          _ ≤ x := by omega
      omega

theorem bit_halvings_loop_eq : ∀ fuel x, x ≤ fuel → bit_halvings_loop fuel x = Nat.size x := by
  intro fuel
  induction fuel with
  | zero => intro x h; interval_cases x; simp [bit_halvings_loop]
  | succ f ih =>
    intro x h
    by_cases hx : x = 0
    · subst hx; simp [bit_halvings_loop]
    · rw [bit_halvings_loop, if_neg hx, ih (x / 2) (by omega), ← size_div_two x hx]

/-- The halving counter computes the bit size. -/
theorem bit_halvings_eq_size (x : Nat) : bit_halvings x = Nat.size x :=
  bit_halvings_loop_eq x x le_rfl

theorem isqrtAux_spec (n : Nat) :
    ∀ k acc, acc * acc ≤ n → n < (acc + 2 ^ k) * (acc + 2 ^ k) →
      isqrtAux n k acc * isqrtAux n k acc ≤ n ∧
        n < (isqrtAux n k acc + 1) * (isqrtAux n k acc + 1) := by
  intro k
  induction k with
  | zero => intro acc h1 h2; simpa [isqrtAux] using ⟨h1, by simpa using h2⟩
  | succ j ih =>
    intro acc h1 h2
    rw [isqrtAux]
    by_cases hc : (acc + 2 ^ j) * (acc + 2 ^ j) ≤ n
    · rw [if_pos hc]
      refine ih (acc + 2 ^ j) hc ?_
      have he : acc + 2 ^ j + 2 ^ j = acc + 2 ^ (j + 1) := by rw [pow_succ]; omega
      rw [he]; exact h2
    · rw [if_neg hc]
      exact ih acc h1 (by omega)

/-- The bitwise square-root search computes Nat.sqrt, hence models mpz_sqrt. -/
theorem mpz_sqrt_eq_sqrt (n : Nat) : mpz_sqrt n = Nat.sqrt n := by
  have hinit : n < (0 + 2 ^ bit_halvings n) * (0 + 2 ^ bit_halvings n) := by
    have h1 : n < 2 ^ bit_halvings n := by
      rw [bit_halvings_eq_size]; exact Nat.lt_size_self n
    have h2 : 1 ≤ 2 ^ bit_halvings n := Nat.one_le_two_pow
    calc n < 2 ^ bit_halvings n := h1
      _ ≤ 2 ^ bit_halvings n * 2 ^ bit_halvings n := Nat.le_mul_of_pos_left _ (by omega)
      _ = (0 + 2 ^ bit_halvings n) * (0 + 2 ^ bit_halvings n) := by simp
  have h := isqrtAux_spec n (bit_halvings n) 0 (by simp) hinit
  have hgoal : isqrtAux n (bit_halvings n) 0 = Nat.sqrt n := Nat.eq_sqrt.mpr ⟨h.1, h.2⟩
  exact hgoal

theorem powm_loop_eq (m : Nat) (hm : 0 < m) :
    ∀ fuel e acc base, e < fuel → acc < m →
      powm_loop m fuel acc base e = acc * base ^ e % m := by
  intro fuel
  induction fuel with
  | zero => omega
  | succ f ih =>
    intro e acc base he hacc
    by_cases h0 : e = 0
    · subst h0; rw [powm_loop, if_pos rfl]; simp [Nat.mod_eq_of_lt hacc]
    · have hrec : e / 2 < f := by omega
      have hsplit : 2 * (e / 2) + e % 2 = e := Nat.div_add_mod e 2
      by_cases hodd : e % 2 = 1
      · rw [powm_loop, if_neg h0, if_pos hodd, ih (e / 2) _ _ hrec (Nat.mod_lt _ hm)]
        have h1 : (acc * base % m) * (base * base % m) ^ (e / 2) ≡
            acc * base * (base * base) ^ (e / 2) [MOD m] :=
          Nat.ModEq.mul (Nat.mod_modEq _ _) (Nat.ModEq.pow _ (Nat.mod_modEq _ _))
        have h2 : acc * base * (base * base) ^ (e / 2) = acc * base ^ e := by
          conv_rhs => rw [← hsplit, hodd]
          ring
        rw [h2] at h1
        exact h1
      · rw [powm_loop, if_neg h0, if_neg hodd, ih (e / 2) _ _ hrec hacc]
        have h1 : acc * (base * base % m) ^ (e / 2) ≡
            acc * (base * base) ^ (e / 2) [MOD m] :=
          Nat.ModEq.mul (Nat.ModEq.refl acc) (Nat.ModEq.pow _ (Nat.mod_modEq _ _))
        have h2 : acc * (base * base) ^ (e / 2) = acc * base ^ e := by
          have hev : e % 2 = 0 := by omega
          conv_rhs => rw [← hsplit, hev, Nat.add_zero]
          ring
        rw [h2] at h1
        exact h1

/-- mpz_powm computes modular exponentiation. -/
theorem mpz_powm_eq (base e m : Nat) (hm : 0 < m) : mpz_powm base e m = base ^ e % m := by
  rw [mpz_powm, powm_loop_eq m hm (e + 1) e _ base (Nat.lt_succ_self e) (Nat.mod_lt 1 hm)]
  rw [Nat.mul_mod, Nat.mod_mod_of_dvd _ dvd_rfl, ← Nat.mul_mod, one_mul]

theorem export_le_loop_eq : ∀ fuel m, m ≤ fuel → export_le_loop fuel m = Nat.digits 256 m := by
  intro fuel
  induction fuel with
  | zero => intro m h; interval_cases m; simp [export_le_loop]
  | succ f ih =>
    intro m h
    by_cases hm : m = 0
    · subst hm; simp [export_le_loop]
    · rw [export_le_loop, if_neg hm, ih (m / 256) (by omega),
        Nat.digits_def' (by norm_num : (1:Nat) < 256) (Nat.pos_of_ne_zero hm)]

/-- The export digit loop produces the base-256 digit string of m. -/
theorem mpz_export_be_eq (m : Nat) : mpz_export_be m = (Nat.digits 256 m).reverse := by
  rw [mpz_export_be, export_le_loop_eq m m le_rfl]

theorem foldl_base256 (L : List Nat) :
    ∀ acc, L.foldl (fun acc b => acc * 256 + b) acc =
      acc * 256 ^ L.length + Nat.ofDigits 256 L.reverse := by
  induction L with
  | nil => intro acc; simp
  | cons x L ih =>
    intro acc
    rw [List.foldl_cons, ih (acc * 256 + x), List.reverse_cons, Nat.ofDigits_append]
    simp [Nat.ofDigits_singleton, List.length_reverse, pow_succ]
    ring

/-- mpz_import reads big-endian bytes: the value is ofDigits of the reversed
byte string. -/
theorem mpz_import_be_eq (L : List Nat) : mpz_import_be L = Nat.ofDigits 256 L.reverse := by
  rw [mpz_import_be, foldl_base256 L 0, Nat.zero_mul, Nat.zero_add]

/-! ### Characterizations of the file-transform loops -/

theorem ss_encrypt_blocks_nil (bs fuel : Nat) : ss_encrypt_blocks bs fuel [] = [] := by
  cases fuel <;> simp [ss_encrypt_blocks]

theorem ss_encrypt_blocks_fuel_eq (bs : Nat) :
    ∀ f g input, input.length ≤ f → input.length ≤ g →
      ss_encrypt_blocks bs (f + 1) input = ss_encrypt_blocks bs (g + 1) input := by
  intro f
  induction f with
  | zero =>
    intro g input hf _
    have hnil : input = [] := List.eq_nil_of_length_eq_zero (by omega)
    subst hnil
    rw [ss_encrypt_blocks_nil, ss_encrypt_blocks_nil]
  | succ f ih =>
    intro g input hf hg
    rcases input with _ | ⟨x, xs⟩
    · rw [ss_encrypt_blocks_nil, ss_encrypt_blocks_nil]
    · have hg1 : 1 ≤ g := by
        have hx : 1 ≤ (x :: xs).length := by simp
        omega
      obtain ⟨g', rfl⟩ : ∃ g', g = g' + 1 := ⟨g - 1, by omega⟩
      by_cases hbs : bs - 1 = 0
      · rw [ss_encrypt_blocks]
        conv_rhs => rw [ss_encrypt_blocks]
        simp [hbs]
      · rw [ss_encrypt_blocks]
        conv_rhs => rw [ss_encrypt_blocks]
        have hchunk : ¬((x :: xs).take (bs - 1)).length = 0 := by
          simp [List.length_take]
          omega
        simp only [if_neg hchunk]
        congr 1
        have hd : ((x :: xs).drop (bs - 1)).length ≤ (x :: xs).length - 1 := by
          rw [List.length_drop]
          omega
        have hlen1 : (x :: xs).length = xs.length + 1 := by simp
        refine ih g' ((x :: xs).drop (bs - 1)) ?_ ?_
        · omega
        · omega

/-- One step of the encrypt block loop on nonempty input: read up to
block_size−1 bytes, frame them as 0xFF followed by the zero-padded chunk,
recurse on the remaining input. -/
theorem ss_encrypt_blocks_step (bs : Nat) (input : List Nat) (h2 : 2 ≤ bs)
    (hne : input ≠ []) :
    ss_encrypt_blocks bs (input.length + 1) input =
      mpz_import_be (0xFF :: (input.take (bs - 1) ++
          List.replicate (bs - 1 - (input.take (bs - 1)).length) 0)) ::
        ss_encrypt_blocks bs ((input.drop (bs - 1)).length + 1) (input.drop (bs - 1)) := by
  rw [ss_encrypt_blocks]
  have hchunk : ¬(input.take (bs - 1)).length = 0 := by
    rw [List.length_take]
    have : input.length ≥ 1 := by
      cases input with
      | nil => exact absurd rfl hne
      | cons a l => simp
    omega
  simp only [if_neg hchunk]
  congr 1
  have hpos : 1 ≤ input.length := by
    cases input with
    | nil => exact absurd rfl hne
    | cons a l => simp
  have hd : (input.drop (bs - 1)).length ≤ input.length - 1 := by
    rw [List.length_drop]
    omega
  have hsplit : input.length = (input.length - 1) + 1 := by omega
  rw [hsplit]
  exact ss_encrypt_blocks_fuel_eq bs (input.length - 1) (input.drop (bs - 1)).length
    (input.drop (bs - 1)) (by omega) le_rfl

theorem ss_encrypt_file_nil (n : Nat) : ss_encrypt_file n [] = [] := by
  rw [ss_encrypt_file, ss_encrypt_blocks_nil, List.map_nil]

/-- One step of ss_encrypt_file on nonempty input. -/
theorem ss_encrypt_file_step (n : Nat) (input : List Nat)
    (h2 : 2 ≤ ss_enc_block_size n) (hne : input ≠ []) :
    ss_encrypt_file n input =
      ss_encrypt (mpz_import_be (0xFF :: (input.take (ss_enc_block_size n - 1) ++
          List.replicate (ss_enc_block_size n - 1 -
            (input.take (ss_enc_block_size n - 1)).length) 0))) n ::
        ss_encrypt_file n (input.drop (ss_enc_block_size n - 1)) := by
  rw [ss_encrypt_file, ss_encrypt_blocks_step _ _ h2 hne, List.map_cons, ss_encrypt_file]

/-- ss_encrypt_file of a single short block: the whole input fits in one frame
and the loop stops after it. -/
theorem ss_encrypt_file_single (n : Nat) (input : List Nat)
    (h2 : 2 ≤ ss_enc_block_size n) (hne : input ≠ [])
    (hlen : input.length ≤ ss_enc_block_size n - 1) :
    ss_encrypt_file n input =
      [ss_encrypt (mpz_import_be (0xFF :: (input ++
          List.replicate (ss_enc_block_size n - 1 - input.length) 0))) n] := by
  rw [ss_encrypt_file_step n input h2 hne, List.take_of_length_le hlen,
    List.drop_eq_nil_of_le hlen, ss_encrypt_file_nil]

theorem ss_decrypt_file_loop_stuck (d pq : Nat) :
    ∀ fuel cur out rest, ss_decrypt_file_loop d pq fuel cur (none :: rest) out = none := by
  intro fuel
  induction fuel with
  | zero => intro cur out rest; rfl
  | succ f ih =>
    intro cur out rest
    show ss_decrypt_file_loop d pq f cur (none :: rest)
      (out ++ ss_write_block (ss_decrypt cur d pq)) = none
    exact ih cur _ rest

/-- On a fully well-formed token stream the decrypt loop terminates (given
fuel beyond the stream length) and outputs the concatenation of the written
blocks. -/
theorem ss_decrypt_file_loop_ok (d pq : Nat) :
    ∀ (fuel : Nat) (tokens : List Nat) (cur : Nat) (out : List Nat), tokens.length < fuel →
      ss_decrypt_file_loop d pq fuel cur (tokens.map some) out =
        some (out ++ (tokens.map (fun c => ss_write_block (ss_decrypt c d pq))).flatten) := by
  intro fuel
  induction fuel with
  | zero => intro tokens cur out h; omega
  | succ f ih =>
    intro tokens cur out hlen
    rcases tokens with _ | ⟨c, ts⟩
    · simp [ss_decrypt_file_loop]
    · show ss_decrypt_file_loop d pq f c (ts.map some)
        (out ++ ss_write_block (ss_decrypt c d pq)) = _
      rw [ih ts c _ (by simp at hlen ⊢; omega)]
      rw [List.map_cons, List.flatten_cons, List.append_assoc]

/-- ss_decrypt_file on a fully well-formed token stream. -/
theorem ss_decrypt_file_ok (d pq : Nat) (tokens : List Nat) :
    ss_decrypt_file d pq (tokens.map some) =
      some ((tokens.map (fun c => ss_write_block (ss_decrypt c d pq))).flatten) := by
  rw [ss_decrypt_file, ss_decrypt_file_loop_ok d pq _ tokens 0 []
    (by rw [List.length_map]; omega), List.nil_append]

/-! ### Miller-Rabin round helpers -/

theorem miller_round_mod (number s r b : Nat) :
    miller_round number s r b = miller_round number s r (b % ((number : Int) - 4).natAbs) := by
  unfold miller_round
  rw [Nat.mod_mod_of_dvd _ dvd_rfl]

theorem miller_rounds_one (number s r i : Nat) (d : Nat → Nat) :
    miller_rounds number s r d i 1 = miller_round number s r (d i) := by
  simp [miller_rounds]

/-! ### Loop postconditions for key and prime generation -/

theorem ss_make_pub_loop_spec (attempts : Nat → Nat × Nat) :
    ∀ (fuel i p q n : Nat), ss_make_pub_loop attempts fuel i = some (p, q, n) →
      (q - 1) % p ≠ 0 ∧ (p - 1) % q ≠ 0 ∧ n = p * p * q := by
  intro fuel
  induction fuel with
  | zero => intro i p q n h; exact absurd h (by simp [ss_make_pub_loop])
  | succ f ih =>
    intro i p q n h
    rw [ss_make_pub_loop] at h
    by_cases hc : ((attempts i).2 - 1) % (attempts i).1 ≠ 0 ∧
        ((attempts i).1 - 1) % (attempts i).2 ≠ 0
    · rw [if_pos hc] at h
      simp only [Option.some.injEq, Prod.mk.injEq] at h
      obtain ⟨h1, h2, h3⟩ := h
      subst h1; subst h2; subst h3
      exact ⟨hc.1, hc.2, rfl⟩
    · rw [if_neg hc] at h
      exact ih (i + 1) p q n h

theorem is_prime_zero (it : Nat) (d : Nat → Nat) : is_prime 0 it d = false := rfl

theorem make_prime_loop_spec (bits iterations : Nat) (cand : Nat → Nat) (wits : Nat → Nat → Nat) :
    ∀ (fuel i cur v : Nat), (cur = 0 ∨ 2 ^ (bits - 1) ≤ cur) →
      make_prime_loop bits iterations cand wits fuel i cur = some v →
      2 ^ (bits - 1) ≤ v ∧ ∃ j, is_prime v iterations (wits j) = true := by
  intro fuel
  induction fuel with
  | zero => intro i cur v _ h; exact absurd h (by simp [make_prime_loop])
  | succ f ih =>
    intro i cur v hcur h
    rw [make_prime_loop] at h
    by_cases hp : is_prime cur iterations (wits i) = true
    · rw [if_pos hp] at h
      simp only [Option.some.injEq] at h
      subst h
      rcases hcur with h0 | hge
      · subst h0
        rw [is_prime_zero] at hp
        cases hp
      · exact ⟨hge, i, hp⟩
    · rw [if_neg hp] at h
      exact ih (i + 1) _ v (Or.inr (Nat.le_add_left _ _)) h

theorem block_size_of_eq (m : Nat) (h1 : 1 ≤ bit_halvings m) (h2 : bit_halvings m ≤ 65535) :
    block_size_of m = (bit_halvings m - 1) / 8 := by
  rw [block_size_of]
  omega

/-! ### Extended Euclid (mod_inverse) correctness -/

theorem natAbs_sub_of_mul_nonpos (x y : Int) (h : x * y ≤ 0) :
    (x - y).natAbs = x.natAbs + y.natAbs := by
  rcases le_or_lt x 0 with hx | hx <;> rcases le_or_lt y 0 with hy | hy
  · have h2 : 0 ≤ x * y := by nlinarith
    have h3 : x * y = 0 := le_antisymm h h2
    rcases mul_eq_zero.mp h3 with h4 | h4 <;> omega
  · omega
  · omega
  · exfalso
    have h2 : 0 < x * y := mul_pos hx hy
    linarith

/-- Invariant-based correctness of the mod_inverse loop on the states
reachable from nonnegative inputs: state (m, v, cm, cv) with m ≥ 1, v ≥ 0,
the magnitude identity |cm|·v + |cv|·m = nn, opposite signs of the two
coefficients, |cm| ≤ nn, the congruences cm·a ≡ m and cv·a ≡ v mod nn, and
gcd preservation.  The final pair (g, t) then satisfies g = gcd(nn, a),
t·a ≡ g (mod nn) and |t| ≤ nn. -/
theorem mod_inverse_loop_spec (nn a : Int) :
    ∀ (fuel : Nat) (m v cm cv : Int), v.natAbs < fuel → 1 ≤ m → 0 ≤ v →
      (cm.natAbs : Int) * v + (cv.natAbs : Int) * m = nn → cm * cv ≤ 0 →
      (cm.natAbs : Int) ≤ nn →
      nn ∣ cm * a - m → nn ∣ cv * a - v → Int.gcd m v = Int.gcd nn a →
      (mod_inverse_loop fuel m v cm cv).1 = ((Int.gcd nn a : Nat) : Int) ∧
        nn ∣ (mod_inverse_loop fuel m v cm cv).2 * a - ((Int.gcd nn a : Nat) : Int) ∧
        ((mod_inverse_loop fuel m v cm cv).2.natAbs : Int) ≤ nn := by
  intro fuel
  induction fuel with
  | zero => intro m v cm cv hfuel hm hv J S K I1 I1' I2; exact absurd hfuel (by omega)
  | succ f ih =>
    intro m v cm cv hfuel hm hv J S K I1 I1' I2
    by_cases hv0 : v = 0
    · subst hv0
      rw [mod_inverse_loop, if_pos rfl]
      have h1 : Int.gcd m 0 = m.natAbs := Int.gcd_zero_right m
      have h2 : (m.natAbs : Int) = m := Int.natAbs_of_nonneg (by omega)
      refine ⟨?_, ?_, K⟩
      · rw [← I2, h1, h2]
      · rw [← I2, h1, h2]
        exact I1
    · have hv1 : 1 ≤ v := by omega
      rw [mod_inverse_loop, if_neg hv0]
      set q := m.fdiv v with hqdef
      have hq0 : 0 ≤ q := Int.fdiv_nonneg (by omega) (by omega)
      have hfd : q = m / v := Int.fdiv_eq_ediv m (by omega)
      have hvv : m - q * v = m % v := by rw [hfd, Int.emod_def]; ring
      have hv'0 : 0 ≤ m - q * v := by rw [hvv]; exact Int.emod_nonneg m hv0
      have hv'lt : m - q * v < v := by rw [hvv]; exact Int.emod_lt_of_pos m (by omega)
      have hfuel' : (m - q * v).natAbs < f := by omega
      have hS' : cm * (q * cv) ≤ 0 := by
        have h1 : q * (cm * cv) ≤ 0 := mul_nonpos_of_nonneg_of_nonpos hq0 S
        calc cm * (q * cv) = q * (cm * cv) := by ring
          _ ≤ 0 := h1
      have hqcv : ((q * cv).natAbs : Int) = q * (cv.natAbs : Int) := by
        rw [Int.natAbs_mul, Nat.cast_mul, Int.natAbs_of_nonneg hq0]
      have habs : (((cm - q * cv).natAbs : Nat) : Int) = (cm.natAbs : Int) + q * (cv.natAbs : Int) := by
        rw [natAbs_sub_of_mul_nonpos cm (q * cv) hS', Nat.cast_add, hqcv]
      refine ih v (m - q * v) cv (cm - q * cv) hfuel' (by omega) hv'0 ?_ ?_ ?_ I1' ?_ ?_
      · rw [habs]
        linear_combination J
      · have hexp : cv * (cm - q * cv) = cm * cv - q * (cv * cv) := by ring
        rw [hexp]
        have h1 : 0 ≤ q * (cv * cv) := mul_nonneg hq0 (mul_self_nonneg cv)
        linarith
      · have h1 : (0 : Int) ≤ (cm.natAbs : Int) * v := by positivity
        have h2 : (cv.natAbs : Int) * 1 ≤ (cv.natAbs : Int) * m :=
          mul_le_mul_of_nonneg_left (by omega) (by positivity)
        linarith
      · have h1 : (cm - q * cv) * a - (m - q * v) = (cm * a - m) - q * (cv * a - v) := by
          ring
        rw [h1]
        exact dvd_sub I1 (Dvd.dvd.mul_left I1' q)
      · rw [← I2, hvv]
        obtain ⟨mN, rfl⟩ : ∃ mN : Nat, (mN : Int) = m := ⟨m.toNat, Int.toNat_of_nonneg (by omega)⟩
        obtain ⟨vN, rfl⟩ : ∃ vN : Nat, (vN : Int) = v := ⟨v.toNat, Int.toNat_of_nonneg hv⟩
        rw [← Int.natCast_mod]
        rw [Int.gcd_natCast_natCast, Int.gcd_natCast_natCast]
        rw [Nat.gcd_comm vN (mN % vN), ← Nat.gcd_rec vN mN, Nat.gcd_comm vN mN]

/-- Full functional specification of mod_inverse for nonnegative value and
modulus > 1: when gcd(nn, a) = 1 the result is in [0, nn) and is an inverse
of a modulo nn; otherwise the result is the sentinel 0. -/
theorem mod_inverse_spec (a nn : Int) (ha : 0 ≤ a) (hn : 1 < nn) :
    (Int.gcd nn a = 1 →
      0 ≤ mod_inverse a nn ∧ mod_inverse a nn < nn ∧ nn ∣ mod_inverse a nn * a - 1) ∧
    (Int.gcd nn a ≠ 1 → mod_inverse a nn = 0) := by
  have hspec := mod_inverse_loop_spec nn a (a.natAbs + 1) nn a 0 1 (Nat.lt_succ_self _)
    (by omega) ha (by simp) (by simp) (by simp; omega)
    (by simp) (by simp) rfl
  obtain ⟨hg, hd, hK⟩ := hspec
  set t := (mod_inverse_loop (a.natAbs + 1) nn a 0 1).2 with htdef
  set g1 := (mod_inverse_loop (a.natAbs + 1) nn a 0 1).1 with hgdef
  have hunf : mod_inverse a nn = if 1 < g1 then 0 else if t < 0 then t + nn else t := by
    rw [mod_inverse]
  constructor
  · intro h1
    have hg1 : g1 = 1 := by rw [hg, h1]; norm_num
    have hnot : ¬(1 < g1) := by omega
    rw [hunf, if_neg hnot]
    have hd1 : nn ∣ t * a - 1 := by
      have : ((Int.gcd nn a : Nat) : Int) = 1 := by rw [h1]; norm_num
      rwa [this] at hd
    have htne : t ≠ nn ∧ t ≠ -nn := by
      constructor <;> intro he
      · have h2 : nn ∣ t * a := he ▸ dvd_mul_right nn a
        have h3 : nn ∣ (1 : Int) := by
          have h4 := dvd_sub h2 hd1
          simpa using h4
        have := Int.le_of_dvd one_pos h3
        omega
      · have h2 : nn ∣ t * a := by
          rw [he]
          exact Dvd.dvd.mul_right (dvd_neg.mpr dvd_rfl) a
        have h3 : nn ∣ (1 : Int) := by
          have h4 := dvd_sub h2 hd1
          simpa using h4
        have := Int.le_of_dvd one_pos h3
        omega
    have hbound : -nn ≤ t ∧ t ≤ nn := by omega
    by_cases hneg : t < 0
    · rw [if_pos hneg]
      refine ⟨by omega, by omega, ?_⟩
      have hexp : (t + nn) * a - 1 = (t * a - 1) + nn * a := by ring
      rw [hexp]
      exact dvd_add hd1 (dvd_mul_right nn a)
    · rw [if_neg hneg]
      exact ⟨by omega, by omega, hd1⟩
  · intro h1
    have hgpos : 0 < Int.gcd nn a := Int.gcd_pos_of_ne_zero_left a (by omega)
    have hg2 : 1 < g1 := by
      rw [hg]
      have : 2 ≤ Int.gcd nn a := by omega
      exact_mod_cast by omega
    rw [hunf, if_pos hg2]

/-! ### Framed-block facts -/

/-- The base-256 digits of an imported framed block are exactly the reversed
frame: the sentinel byte 0xFF is the most significant digit. -/
theorem frame_digits (payload : List Nat) (hp : ∀ b ∈ payload, b < 256) :
    Nat.digits 256 (mpz_import_be (0xFF :: payload)) = (0xFF :: payload).reverse := by
  rw [mpz_import_be_eq, List.reverse_cons]
  refine Nat.digits_ofDigits 256 (by norm_num) _ ?_ ?_
  · intro l hl
    rcases List.mem_append.mp hl with hmem | h255
    · exact hp l (List.mem_reverse.mp hmem)
    · have : l = 255 := List.mem_singleton.mp h255
      omega
  · intro hne
    have h255 : (payload.reverse ++ [255] : List Nat).getLast hne = 255 :=
      List.getLast_append_singleton payload.reverse
    rw [h255]
    norm_num

theorem frame_value (payload : List Nat) :
    mpz_import_be (0xFF :: payload) =
      Nat.ofDigits 256 payload.reverse + 256 ^ payload.length * 255 := by
  rw [mpz_import_be_eq, List.reverse_cons, Nat.ofDigits_append, List.length_reverse]
  norm_num [Nat.ofDigits_singleton]

theorem frame_lower (payload : List Nat) :
    255 * 256 ^ payload.length ≤ mpz_import_be (0xFF :: payload) := by
  rw [frame_value]
  omega

theorem frame_upper (payload : List Nat) (hp : ∀ b ∈ payload, b < 256) :
    mpz_import_be (0xFF :: payload) < 256 ^ (payload.length + 1) := by
  rw [frame_value]
  have h : Nat.ofDigits 256 payload.reverse < 256 ^ payload.length := by
    have := Nat.ofDigits_lt_base_pow_length (b := 256) (l := payload.reverse)
      (by norm_num) (by intro x hx; exact hp x (List.mem_reverse.mp hx))
    simpa [List.length_reverse] using this
  rw [pow_succ]
  omega

/-- Every member of the encrypt block list is an imported frame
0xFF :: payload with payload of length bs−1 over byte values, and bs ≥ 2. -/
theorem ss_encrypt_blocks_mem (bs : Nat) :
    ∀ (fuel : Nat) (input : List Nat) (m : Nat), (∀ b ∈ input, b < 256) →
      m ∈ ss_encrypt_blocks bs fuel input →
      ∃ payload : List Nat, (∀ b ∈ payload, b < 256) ∧ payload.length = bs - 1 ∧
        m = mpz_import_be (0xFF :: payload) ∧ 2 ≤ bs := by
  intro fuel
  induction fuel with
  | zero => intro input m _ hm; simp [ss_encrypt_blocks] at hm
  | succ f ih =>
    intro input m hbytes hm
    rw [ss_encrypt_blocks] at hm
    by_cases hc : (input.take (bs - 1)).length = 0
    · rw [if_pos hc] at hm
      simp at hm
    · rw [if_neg hc] at hm
      have hbs2 : 2 ≤ bs := by
        rw [List.length_take] at hc
        rcases Nat.eq_zero_or_pos (bs - 1) with h0 | h1
        · omega
        · omega
      rcases List.mem_cons.mp hm with hhead | htail
      · refine ⟨input.take (bs - 1) ++ List.replicate (bs - 1 - (input.take (bs - 1)).length) 0,
          ?_, ?_, hhead, hbs2⟩
        · intro b hb
          rcases List.mem_append.mp hb with h1 | h2
          · exact hbytes b (List.take_subset _ _ h1)
          · have := List.eq_of_mem_replicate h2
            omega
        · rw [List.length_append, List.length_replicate, List.length_take]
          have h1 : (bs - 1) ⊓ input.length ≤ bs - 1 := Nat.min_le_left _ _
          omega
      · exact ih (input.drop (bs - 1)) m
          (fun b hb => hbytes b (List.drop_subset _ _ hb)) htail

/-! ### The S-S decryption identity -/

/-- Fermat: for prime p and (p−1) ∣ E, m^(E+1) ≡ m mod p, for every m
(including multiples of p). -/
theorem pow_prime_cycle (p : Nat) (hp : Nat.Prime p) (E : Nat) (hE : (p - 1) ∣ E)
    (m : Nat) : m ^ (E + 1) ≡ m [MOD p] := by
  by_cases hdvd : p ∣ m
  · have h0 : m ≡ 0 [MOD p] := Nat.modEq_zero_iff_dvd.mpr hdvd
    calc m ^ (E + 1) ≡ 0 ^ (E + 1) [MOD p] := h0.pow _
      _ = 0 := by rw [zero_pow (by omega)]
      _ ≡ m [MOD p] := h0.symm
  · obtain ⟨k, hk⟩ := hE
    have hco : Nat.Coprime m p := ((Nat.Prime.coprime_iff_not_dvd hp).mpr hdvd).symm
    have hf : m ^ (p - 1) ≡ 1 [MOD p] := by
      have he := Nat.ModEq.pow_totient hco
      rwa [Nat.totient_prime hp] at he
    have hE1 : m ^ E ≡ 1 [MOD p] := by
      rw [hk, pow_mul]
      calc (m ^ (p - 1)) ^ k ≡ 1 ^ k [MOD p] := hf.pow k
        _ = 1 := one_pow k
    calc m ^ (E + 1) = m ^ E * m := pow_succ m E
      _ ≡ 1 * m [MOD p] := hE1.mul_right m
      _ = m := by rw [one_mul]

/-- The squarefree universal-exponent identity behind S-S decryption: for
distinct primes p, q and an exponent E divisible by p−1 and q−1,
m^(E+1) ≡ m mod p·q for every m. -/
theorem pow_squarefree_cycle (p q : Nat) (hp : Nat.Prime p) (hq : Nat.Prime q)
    (hpq : p ≠ q) (E : Nat) (h1 : (p - 1) ∣ E) (h2 : (q - 1) ∣ E) (m : Nat) :
    m ^ (E + 1) ≡ m [MOD p * q] := by
  have hco : Nat.Coprime p q := (Nat.coprime_primes hp hq).mpr hpq
  exact (Nat.modEq_and_modEq_iff_modEq_mul hco).mp
    ⟨pow_prime_cycle p hp E h1 m, pow_prime_cycle q hq E h2 m⟩

/-- Lambda as computed by ss_make_priv is lcm(p−1, q−1). -/
theorem ss_lambda_eq_lcm (p q : Nat) : ss_lambda p q = Nat.lcm (p - 1) (q - 1) := by
  rw [ss_lambda, gcd_eq]
  rfl

theorem ss_lambda_gt_one (p q : Nat) (hp : Nat.Prime p) (hq : Nat.Prime q) (hpq : p ≠ q) :
    1 < ss_lambda p q := by
  rw [ss_lambda_eq_lcm]
  have hp2 := hp.two_le
  have hq2 := hq.two_le
  have hlpos : 0 < Nat.lcm (p - 1) (q - 1) :=
    Nat.pos_of_ne_zero (Nat.lcm_ne_zero (by omega) (by omega))
  have h1 : p - 1 ≤ Nat.lcm (p - 1) (q - 1) := Nat.le_of_dvd hlpos (Nat.dvd_lcm_left _ _)
  have h2 : q - 1 ≤ Nat.lcm (p - 1) (q - 1) := Nat.le_of_dvd hlpos (Nat.dvd_lcm_right _ _)
  have h3 : 3 ≤ p ∨ 3 ≤ q := by omega
  omega

/-- The two accept checks of ss_make_pub make n = p²·q invertible modulo λ:
neither p nor q divides lcm(p−1, q−1). -/
theorem ss_n_coprime_lambda (p q : Nat) (hp : Nat.Prime p) (hq : Nat.Prime q)
    (hchk1 : (q - 1) % p ≠ 0) (hchk2 : (p - 1) % q ≠ 0) :
    Nat.Coprime (p * p * q) (ss_lambda p q) := by
  rw [ss_lambda_eq_lcm]
  have hp2 := hp.two_le
  have hq2 := hq.two_le
  have hpl : ¬p ∣ Nat.lcm (p - 1) (q - 1) := by
    intro hdvd
    have h1 : p ∣ (p - 1) * (q - 1) := dvd_trans hdvd (Nat.lcm_dvd_mul _ _)
    rcases (Nat.Prime.dvd_mul hp).mp h1 with h2 | h2
    · have := Nat.le_of_dvd (by omega) h2
      omega
    · exact hchk1 (Nat.mod_eq_zero_of_dvd h2)
  have hql : ¬q ∣ Nat.lcm (p - 1) (q - 1) := by
    intro hdvd
    have h1 : q ∣ (p - 1) * (q - 1) := dvd_trans hdvd (Nat.lcm_dvd_mul _ _)
    rcases (Nat.Prime.dvd_mul hq).mp h1 with h2 | h2
    · exact hchk2 (Nat.mod_eq_zero_of_dvd h2)
    · have := Nat.le_of_dvd (by omega) h2
      omega
  have hcp : Nat.Coprime p (Nat.lcm (p - 1) (q - 1)) := (hp.coprime_iff_not_dvd).mpr hpl
  have hcq : Nat.Coprime q (Nat.lcm (p - 1) (q - 1)) := (hq.coprime_iff_not_dvd).mpr hql
  exact (hcp.mul hcp).mul hcq

/-- The private exponent d = mod_inverse(n, λ) computed by ss_make_priv
satisfies d·n ≥ 1 and λ ∣ d·n − 1, i.e. d·n ≡ 1 (mod λ). -/
theorem ss_d_spec (p q : Nat) (hp : Nat.Prime p) (hq : Nat.Prime q) (hpq : p ≠ q)
    (hchk1 : (q - 1) % p ≠ 0) (hchk2 : (p - 1) % q ≠ 0) :
    1 ≤ (ss_make_priv p q).1 * (p * p * q) ∧
      ss_lambda p q ∣ (ss_make_priv p q).1 * (p * p * q) - 1 := by
  have hp2 := hp.two_le
  have hq2 := hq.two_le
  have hl1 : 1 < ss_lambda p q := ss_lambda_gt_one p q hp hq hpq
  have hco : Nat.Coprime (p * p * q) (ss_lambda p q) :=
    ss_n_coprime_lambda p q hp hq hchk1 hchk2
  have hn' : ss_make_priv_n p q = p * p * q := by rw [ss_make_priv_n]; ring
  have hgcd : Int.gcd ((ss_lambda p q : Nat) : Int) ((ss_make_priv_n p q : Nat) : Int) = 1 := by
    rw [hn', Int.gcd_natCast_natCast, Nat.gcd_comm]
    exact hco
  obtain ⟨h0, h1, h2⟩ := (mod_inverse_spec ((ss_make_priv_n p q : Nat) : Int)
    ((ss_lambda p q : Nat) : Int) (Int.natCast_nonneg _) (by exact_mod_cast hl1)).1 hgcd
  have hd : (((ss_make_priv p q).1 : Nat) : Int) =
      mod_inverse ((ss_make_priv_n p q : Nat) : Int) ((ss_lambda p q : Nat) : Int) := by
    rw [ss_make_priv]
    exact Int.toNat_of_nonneg h0
  have hd1 : 1 ≤ (ss_make_priv p q).1 := by
    rcases Nat.eq_zero_or_pos (ss_make_priv p q).1 with h | h
    · exfalso
      have hz : mod_inverse ((ss_make_priv_n p q : Nat) : Int)
          ((ss_lambda p q : Nat) : Int) = 0 := by
        rw [← hd, h]
        rfl
      rw [hz] at h2
      have h4 : ((ss_lambda p q : Nat) : Int) ∣ 1 := by
        have h5 : (0 : Int) * ((ss_make_priv_n p q : Nat) : Int) - 1 = -1 := by ring
        rw [h5] at h2
        exact (dvd_neg).mp h2
      have h6 := Int.le_of_dvd one_pos h4
      have h7 : (1 : Int) < ((ss_lambda p q : Nat) : Int) := by exact_mod_cast hl1
      omega
    · exact h
  have hge : 1 ≤ (ss_make_priv p q).1 * (p * p * q) := by
    have hnn : 1 ≤ p * p * q := Nat.one_le_iff_ne_zero.mpr (by positivity)
    calc 1 = 1 * 1 := by norm_num
      _ ≤ (ss_make_priv p q).1 * (p * p * q) := Nat.mul_le_mul hd1 hnn
  refine ⟨hge, ?_⟩
  have hIntDvd : ((ss_lambda p q : Nat) : Int) ∣
      (((ss_make_priv p q).1 * (p * p * q) - 1 : Nat) : Int) := by
    rw [Nat.cast_sub hge, Nat.cast_mul, Nat.cast_one, hd, ← hn']
    exact h2
  exact Int.natCast_dvd_natCast.mp hIntDvd

/-- One-block decryption correctness: for a valid pair and m < p·q,
decrypting the encryption of m recovers m. -/
theorem ss_roundtrip_block (p q : Nat) (hp : Nat.Prime p) (hq : Nat.Prime q) (hpq : p ≠ q)
    (hchk1 : (q - 1) % p ≠ 0) (hchk2 : (p - 1) % q ≠ 0)
    (m : Nat) (hm : m < p * q) :
    ss_decrypt (ss_encrypt m (p * p * q)) (ss_make_priv p q).1 (ss_make_priv p q).2 = m := by
  have hp2 := hp.two_le
  have hq2 := hq.two_le
  have hnnpos : 0 < p * p * q := by positivity
  have hpqpos : 0 < p * q := by positivity
  have hpq2 : (ss_make_priv p q).2 = p * q := rfl
  rw [hpq2, ss_encrypt, ss_decrypt, mpz_powm_eq _ _ _ hnnpos, mpz_powm_eq _ _ _ hpqpos]
  obtain ⟨hge, hdvd⟩ := ss_d_spec p q hp hq hpq hchk1 hchk2
  have hEd : (ss_make_priv p q).1 * (p * p * q) =
      ((ss_make_priv p q).1 * (p * p * q) - 1) + 1 := by omega
  have h1 : (p - 1) ∣ (ss_make_priv p q).1 * (p * p * q) - 1 :=
    dvd_trans (by rw [ss_lambda_eq_lcm]; exact Nat.dvd_lcm_left _ _) hdvd
  have h2 : (q - 1) ∣ (ss_make_priv p q).1 * (p * p * q) - 1 :=
    dvd_trans (by rw [ss_lambda_eq_lcm]; exact Nat.dvd_lcm_right _ _) hdvd
  have hcyc : m ^ (((ss_make_priv p q).1 * (p * p * q) - 1) + 1) ≡ m [MOD p * q] :=
    pow_squarefree_cycle p q hp hq hpq _ h1 h2 m
  have hchain : (m ^ (p * p * q) % (p * p * q)) ^ (ss_make_priv p q).1 ≡ m [MOD p * q] := by
    have hc1 : m ^ (p * p * q) % (p * p * q) ≡ m ^ (p * p * q) [MOD p * q] :=
      Nat.ModEq.of_dvd ⟨p, by ring⟩ (Nat.mod_modEq _ _)
    calc (m ^ (p * p * q) % (p * p * q)) ^ (ss_make_priv p q).1
        ≡ (m ^ (p * p * q)) ^ (ss_make_priv p q).1 [MOD p * q] := hc1.pow _
      _ = m ^ ((p * p * q) * (ss_make_priv p q).1) := by rw [← pow_mul]
      _ = m ^ (((ss_make_priv p q).1 * (p * p * q) - 1) + 1) := by
          rw [Nat.mul_comm, ← hEd]
      _ ≡ m [MOD p * q] := hcyc
  rw [Nat.ModEq] at hchain
  rw [hchain, Nat.mod_eq_of_lt hm]

theorem mpz_sqrt_le_pq (p q : Nat) (hq : 1 ≤ q) : mpz_sqrt (p * p * q) ≤ p * q := by
  rw [mpz_sqrt_eq_sqrt]
  have hle : p * p * q ≤ (p * q) * (p * q) := by
    have h : (p * q) * (p * q) = (p * p * q) * q := by ring
    rw [h]
    exact Nat.le_mul_of_pos_right _ (by omega)
  calc Nat.sqrt (p * p * q) ≤ Nat.sqrt ((p * q) * (p * q)) := Nat.sqrt_le_sqrt hle
    _ = p * q := Nat.sqrt_eq (p * q)

/-- The encrypt-side block size keeps blocks below ⌊√n⌋: 2^(8·bs) ≤ ⌊√n⌋. -/
theorem two_pow_enc_bs_le (nn : Nat) (hpos : 0 < nn)
    (hnw : bit_halvings (mpz_sqrt nn) ≤ 65535) :
    2 ^ (8 * ss_enc_block_size nn) ≤ mpz_sqrt nn := by
  have hsq1 : 1 ≤ mpz_sqrt nn := by
    rw [mpz_sqrt_eq_sqrt]
    have := Nat.sqrt_pos.mpr hpos
    omega
  have hh1 : 1 ≤ bit_halvings (mpz_sqrt nn) := by
    rw [bit_halvings_eq_size]
    exact Nat.size_pos.mpr (by omega)
  rw [ss_enc_block_size, block_size_of_eq _ hh1 hnw]
  have h8 : 8 * ((bit_halvings (mpz_sqrt nn) - 1) / 8) ≤ bit_halvings (mpz_sqrt nn) - 1 := by
    have := Nat.div_mul_le_self (bit_halvings (mpz_sqrt nn) - 1) 8
    omega
  have hpow : (2 : Nat) ^ (8 * ((bit_halvings (mpz_sqrt nn) - 1) / 8)) ≤
      2 ^ (bit_halvings (mpz_sqrt nn) - 1) :=
    Nat.pow_le_pow_right (by norm_num) h8
  have hsz : 2 ^ (bit_halvings (mpz_sqrt nn) - 1) ≤ mpz_sqrt nn := by
    rw [bit_halvings_eq_size] at hh1 ⊢
    exact Nat.lt_size.mp (by omega)
  exact le_trans hpow hsz

/-- Dropping the first byte of the export of an imported frame recovers the
payload. -/
theorem ss_write_block_frame (payload : List Nat) (hp : ∀ b ∈ payload, b < 256) :
    ss_write_block (mpz_import_be (0xFF :: payload)) = payload := by
  rw [ss_write_block, mpz_export_be_eq, frame_digits payload hp, List.reverse_reverse]
  rfl

/-! ### Claim theorems -/

/-- Claim C9: for every base a and every modulus n > 1, pow_mod(a, 0, n)
equals 1 mod n and pow_mod(a, 1, n) equals a mod n (the exponent is
nonnegative in both cases, as the code assumes). -/
theorem claim_C9 (a n : Int) (hn : 1 < n) :
    pow_mod a 0 n = 1 % n ∧ pow_mod a 1 n = a % n := by
  constructor
  · show pow_mod_loop n 1 1 a 0 = 1 % n
    rw [pow_mod_loop, if_pos le_rfl]
    exact (Int.emod_eq_of_lt (by norm_num) (by omega)).symm
  · show pow_mod_loop n 2 1 a 1 = a % n
    rw [pow_mod_loop, if_neg (by norm_num), if_pos (by norm_num)]
    show pow_mod_loop n 1 (1 * a % n) (a * a % n) 0 = a % n
    rw [pow_mod_loop, if_pos (by norm_num), one_mul]

/-- Witness for claim C9 at a = 5, n = 3. -/
theorem claim_C9_witness :
    (1 : Int) < 3 ∧ (pow_mod 5 0 3 = 1 % 3 ∧ pow_mod 5 1 3 = 5 % 3) :=
  ⟨by norm_num, claim_C9 5 3 (by norm_num)⟩

/-- Claim C5: every pair output by the ss_make_pub accept loop satisfies
(q−1) mod p ≠ 0 and (p−1) mod q ≠ 0, its public modulus is n = p²·q, and the
modulus n recomputed by ss_make_priv from the same p, q ((p·q)·p) equals that
public n. -/
theorem claim_C5 (attempts : Nat → Nat × Nat) (fuel p q n : Nat)
    (h : ss_make_pub attempts fuel = some (p, q, n)) :
    (q - 1) % p ≠ 0 ∧ (p - 1) % q ≠ 0 ∧ n = p * p * q ∧ ss_make_priv_n p q = n := by
  obtain ⟨h1, h2, h3⟩ := ss_make_pub_loop_spec attempts fuel 0 p q n h
  refine ⟨h1, h2, h3, ?_⟩
  rw [ss_make_priv_n, h3]
  ring

/-- Witness for claim C5: a one-attempt oracle producing (p, q) = (3, 5). -/
theorem claim_C5_witness :
    ss_make_pub (fun _ => (3, 5)) 1 = some (3, 5, 45) ∧
      ((5 - 1) % 3 ≠ 0 ∧ (3 - 1) % 5 ≠ 0 ∧ 45 = 3 * 3 * 5 ∧ ss_make_priv_n 3 5 = 45) :=
  ⟨by decide, claim_C5 (fun _ => (3, 5)) 1 3 5 45 (by decide)⟩

/-- Claim C6: whenever make_prime terminates with value v, v passed is_prime
with the given iteration count (under the witness draws of the successful
attempt), and v ≥ 2^(bits−1) because the floor 2^(bits−1) is added to every
random draw. -/
theorem claim_C6 (bits iterations fuel : Nat) (cand : Nat → Nat) (wits : Nat → Nat → Nat)
    (v : Nat) (h : make_prime bits iterations cand wits fuel = some v) :
    2 ^ (bits - 1) ≤ v ∧ ∃ j, is_prime v iterations (wits j) = true :=
  make_prime_loop_spec bits iterations cand wits fuel 0 0 v (Or.inl rfl) h

/-- Witness for claim C6: bits = 2, one candidate draw 1 giving 1 % 4 + 2 = 3,
which passes one Miller-Rabin round with witness draw 0. -/
theorem claim_C6_witness :
    make_prime 2 1 (fun _ => 1) (fun _ _ => 0) 2 = some 3 ∧
      (2 ^ (2 - 1) ≤ 3 ∧ ∃ j, is_prime 3 1 ((fun (_ _ : Nat) => 0) j) = true) :=
  ⟨by decide, claim_C6 2 1 2 (fun _ => 1) (fun _ _ => 0) 3 (by decide)⟩

/-- Claim C7: is_prime is false at 1, true at 2, false at every even k > 2,
and with one test round is true at 3, 5, 7, 11 and false at 4, 6, 8, 9, 15,
for every possible witness draw. -/
theorem claim_C7 :
    (∀ (it : Nat) (d : Nat → Nat), is_prime 1 it d = false) ∧
    (∀ (it : Nat) (d : Nat → Nat), is_prime 2 it d = true) ∧
    (∀ (k it : Nat) (d : Nat → Nat), 2 < k → k % 2 = 0 → is_prime k it d = false) ∧
    (∀ d : Nat → Nat, is_prime 3 1 d = true) ∧
    (∀ d : Nat → Nat, is_prime 5 1 d = true) ∧
    (∀ d : Nat → Nat, is_prime 7 1 d = true) ∧
    (∀ d : Nat → Nat, is_prime 11 1 d = true) ∧
    (∀ d : Nat → Nat, is_prime 4 1 d = false) ∧
    (∀ d : Nat → Nat, is_prime 6 1 d = false) ∧
    (∀ d : Nat → Nat, is_prime 8 1 d = false) ∧
    (∀ d : Nat → Nat, is_prime 9 1 d = false) ∧
    (∀ d : Nat → Nat, is_prime 15 1 d = false) := by
  refine ⟨fun it d => rfl, fun it d => rfl, ?_, ?_, ?_, ?_, ?_,
    fun d => rfl, fun d => rfl, fun d => rfl, ?_, ?_⟩
  · intro k it d hk he
    rw [is_prime, if_neg (by omega), if_neg (by omega), if_pos he]
  · intro d
    show miller_rounds 3 1 1 d 0 1 = true
    rw [miller_rounds_one, miller_round_mod]
    have h : d 0 % ((3 : Int) - 4).natAbs < 1 := Nat.mod_lt _ (by decide)
    revert h
    generalize d 0 % ((3 : Int) - 4).natAbs = x
    revert x
    decide
  · intro d
    show miller_rounds 5 2 1 d 0 1 = true
    rw [miller_rounds_one, miller_round_mod]
    have h : d 0 % ((5 : Int) - 4).natAbs < 1 := Nat.mod_lt _ (by decide)
    revert h
    generalize d 0 % ((5 : Int) - 4).natAbs = x
    revert x
    decide
  · intro d
    show miller_rounds 7 1 3 d 0 1 = true
    rw [miller_rounds_one, miller_round_mod]
    have h : d 0 % ((7 : Int) - 4).natAbs < 3 := Nat.mod_lt _ (by decide)
    revert h
    generalize d 0 % ((7 : Int) - 4).natAbs = x
    revert x
    decide
  · intro d
    show miller_rounds 11 1 5 d 0 1 = true
    rw [miller_rounds_one, miller_round_mod]
    have h : d 0 % ((11 : Int) - 4).natAbs < 7 := Nat.mod_lt _ (by decide)
    revert h
    generalize d 0 % ((11 : Int) - 4).natAbs = x
    revert x
    decide
  · intro d
    show miller_rounds 9 3 1 d 0 1 = false
    rw [miller_rounds_one, miller_round_mod]
    have h : d 0 % ((9 : Int) - 4).natAbs < 5 := Nat.mod_lt _ (by decide)
    revert h
    generalize d 0 % ((9 : Int) - 4).natAbs = x
    revert x
    decide
  · intro d
    show miller_rounds 15 1 7 d 0 1 = false
    rw [miller_rounds_one, miller_round_mod]
    have h : d 0 % ((15 : Int) - 4).natAbs < 11 := Nat.mod_lt _ (by decide)
    revert h
    generalize d 0 % ((15 : Int) - 4).natAbs = x
    revert x
    decide

/-- Witness for claim C7, exercising the even-input conjunct at k = 4. -/
theorem claim_C7_witness :
    (2 < 4 ∧ 4 % 2 = 0) ∧ is_prime 4 2 (fun _ => 0) = false :=
  ⟨⟨by decide, by decide⟩, claim_C7.2.2.1 4 2 (fun _ => 0) (by decide) (by decide)⟩

/-- Claim C1 as stated is false: for the generated-shape key pair
(p, q) = (8191, 16777213) — total_bits 50, p_bits 13, both accept checks pass —
and the plaintext [0x48] of length 1 < block_size − 1 = 2, decrypting the
encryption yields [0x48, 0x00]: the zero padding of the short final block is
written to the output, so the result is not exactly the original sequence. -/
theorem claim_C1_counterexample :
    SSKeyGen 50 13 8191 16777213 ∧
      ([0x48] : List Nat).length < ss_enc_block_size (8191 * 8191 * 16777213) - 1 ∧
      ss_decrypt_file (ss_make_priv 8191 16777213).1 (ss_make_priv 8191 16777213).2
          ((ss_encrypt_file (8191 * 8191 * 16777213) [0x48]).map some) =
        some [0x48, 0] ∧
      some [0x48, 0] ≠ some ([0x48] : List Nat) := by
  refine ⟨⟨by decide, by decide, by norm_num, by decide, by decide, by norm_num,
    by decide, by decide, by decide, by decide, by decide⟩, by decide, by decide, by decide⟩

/-- Claim C1 amended: decrypting the encryption of a plaintext shorter than
block_size − 1 yields the plaintext right-padded with zero bytes to length
block_size − 1 (and the empty output for empty input) — the original bytes are
recovered, followed by the padding, which the decryption does not strip. -/
theorem claim_C1_amended (p q : Nat) (hp : Nat.Prime p) (hq : Nat.Prime q) (hpq : p ≠ q)
    (hchk1 : (q - 1) % p ≠ 0) (hchk2 : (p - 1) % q ≠ 0)
    (hnw : bit_halvings (mpz_sqrt (p * p * q)) ≤ 65535)
    (input : List Nat) (hbytes : ∀ b ∈ input, b < 256)
    (hlen : input.length < ss_enc_block_size (p * p * q) - 1) :
    ss_decrypt_file (ss_make_priv p q).1 (ss_make_priv p q).2
        ((ss_encrypt_file (p * p * q) input).map some) =
      some (if input = [] then []
        else input ++ List.replicate (ss_enc_block_size (p * p * q) - 1 - input.length) 0) := by
  have hp2 := hp.two_le
  have hq2 := hq.two_le
  by_cases hinput : input = []
  · subst hinput
    rw [ss_encrypt_file_nil, if_pos rfl]
    have h := ss_decrypt_file_ok (ss_make_priv p q).1 (ss_make_priv p q).2 []
    simpa using h
  · rw [if_neg hinput]
    have hpos : 0 < input.length := List.length_pos.mpr hinput
    rw [ss_encrypt_file_single _ _ (by omega) hinput (by omega)]
    rw [show ([ss_encrypt (mpz_import_be (0xFF :: (input ++
        List.replicate (ss_enc_block_size (p * p * q) - 1 - input.length) 0)))
          (p * p * q)].map some) =
        (([ss_encrypt (mpz_import_be (0xFF :: (input ++
          List.replicate (ss_enc_block_size (p * p * q) - 1 - input.length) 0)))
            (p * p * q)]).map Option.some) from rfl]
    rw [ss_decrypt_file_ok]
    simp only [List.map_cons, List.map_nil, List.flatten_cons, List.flatten_nil,
      List.append_nil]
    congr 1
    have hpayload_bytes : ∀ b ∈ input ++
        List.replicate (ss_enc_block_size (p * p * q) - 1 - input.length) 0, b < 256 := by
      intro b hb
      rcases List.mem_append.mp hb with h1 | h1
      · exact hbytes b h1
      · have := List.eq_of_mem_replicate h1
        omega
    have hpayload_len : (input ++
        List.replicate (ss_enc_block_size (p * p * q) - 1 - input.length) 0).length =
          ss_enc_block_size (p * p * q) - 1 := by
      rw [List.length_append, List.length_replicate]
      omega
    have hmlt : mpz_import_be (0xFF :: (input ++
        List.replicate (ss_enc_block_size (p * p * q) - 1 - input.length) 0)) < p * q := by
      have hup := frame_upper _ hpayload_bytes
      rw [hpayload_len] at hup
      have hbs1 : ss_enc_block_size (p * p * q) - 1 + 1 = ss_enc_block_size (p * p * q) := by
        omega
      rw [hbs1] at hup
      have h256 : (256 : Nat) ^ ss_enc_block_size (p * p * q) =
          2 ^ (8 * ss_enc_block_size (p * p * q)) := by
        rw [pow_mul]
        norm_num
      rw [h256] at hup
      have hle := two_pow_enc_bs_le (p * p * q) (by positivity) hnw
      have hsqle := mpz_sqrt_le_pq p q (by omega)
      omega
    rw [ss_roundtrip_block p q hp hq hpq hchk1 hchk2 _ hmlt]
    exact ss_write_block_frame _ hpayload_bytes

/-- Witness for the amended claim C1: the counterexample pair with plaintext
[0x48] gives back [0x48] padded with one zero byte. -/
theorem claim_C1_amended_witness :
    ((8191 : Nat) ≠ 16777213 ∧ (16777213 - 1) % 8191 ≠ 0 ∧ (8191 - 1) % 16777213 ≠ 0 ∧
        bit_halvings (mpz_sqrt (8191 * 8191 * 16777213)) ≤ 65535 ∧
        (∀ b ∈ ([0x48] : List Nat), b < 256) ∧
        ([0x48] : List Nat).length < ss_enc_block_size (8191 * 8191 * 16777213) - 1) ∧
      ss_decrypt_file (ss_make_priv 8191 16777213).1 (ss_make_priv 8191 16777213).2
          ((ss_encrypt_file (8191 * 8191 * 16777213) [0x48]).map some) =
        some (if ([0x48] : List Nat) = [] then []
          else [0x48] ++ List.replicate
            (ss_enc_block_size (8191 * 8191 * 16777213) - 1 - ([0x48] : List Nat).length) 0) :=
  ⟨⟨by decide, by decide, by decide, by decide, by decide, by decide⟩,
    claim_C1_amended 8191 16777213 (by norm_num) (by norm_num) (by decide) (by decide)
      (by decide) (by decide) [0x48] (by decide) (by decide)⟩

/-- Claim C3 as stated is false for negative inputs: at a = −3, n = 7 we have
gcd(a, n) = 1, but mod_inverse(−3, 7) = 5 and −3·5 ≡ 6 (mod 7), not 1, so the
returned value is not the inverse the claim promises (the unique inverse of
−3 in [0, 7) is 2). -/
theorem claim_C3_counterexample :
    Int.gcd (-3) 7 = 1 ∧ mod_inverse (-3) 7 = 5 ∧
      ¬((-3 : Int) * mod_inverse (-3) 7 ≡ 1 [ZMOD 7]) := by
  refine ⟨by decide, by decide, ?_⟩
  decide

/-- Claim C3 amended (restricted to nonnegative a, which covers every call
site): for a ≥ 0 and n > 1, if gcd(a, n) = 1 then mod_inverse(a, n) is the
unique x in [0, n) with a·x ≡ 1 (mod n); if gcd(a, n) ≠ 1 it returns the
sentinel 0. -/
theorem claim_C3_amended (a n : Int) (ha : 0 ≤ a) (hn : 1 < n) :
    (Int.gcd a n = 1 →
      0 ≤ mod_inverse a n ∧ mod_inverse a n < n ∧
        a * mod_inverse a n ≡ 1 [ZMOD n] ∧
        ∀ y : Int, 0 ≤ y → y < n → a * y ≡ 1 [ZMOD n] → y = mod_inverse a n) ∧
    (Int.gcd a n ≠ 1 → mod_inverse a n = 0) := by
  have hspec := mod_inverse_spec a n ha hn
  constructor
  · intro hco
    have hco' : Int.gcd n a = 1 := by rwa [Int.gcd_comm]
    obtain ⟨h0, h1, h2⟩ := hspec.1 hco'
    have hmodeq : a * mod_inverse a n ≡ 1 [ZMOD n] := by
      rw [Int.modEq_iff_dvd]
      have hexp : 1 - a * mod_inverse a n = -(mod_inverse a n * a - 1) := by ring
      rw [hexp]
      exact dvd_neg.mpr h2
    refine ⟨h0, h1, hmodeq, ?_⟩
    intro y hy0 hy1 hymod
    have hcancel : y ≡ mod_inverse a n [ZMOD n / Int.gcd n a] :=
      Int.ModEq.cancel_left_div_gcd (by omega) (hymod.trans hmodeq.symm)
    rw [hco'] at hcancel
    have hred : (n / ((1 : Nat) : Int)) = n := by norm_num
    rw [hred] at hcancel
    have he1 : y % n = y := Int.emod_eq_of_lt hy0 hy1
    have he2 : mod_inverse a n % n = mod_inverse a n := Int.emod_eq_of_lt h0 h1
    have := hcancel
    rw [Int.ModEq, he1, he2] at this
    exact this
  · intro hco
    exact hspec.2 (by rwa [Int.gcd_comm])

/-- Witness for the amended claim C3 at a = 3, n = 7 (inverse 5). -/
theorem claim_C3_amended_witness :
    0 ≤ mod_inverse 3 7 ∧ mod_inverse 3 7 < 7 ∧
      (3 : Int) * mod_inverse 3 7 ≡ 1 [ZMOD 7] ∧
      ∀ y : Int, 0 ≤ y → y < 7 → (3 : Int) * y ≡ 1 [ZMOD 7] → y = mod_inverse 3 7 :=
  (claim_C3_amended 3 7 (by norm_num) (by norm_num)).1 (by decide)

/-- Claim C8: file encryption reads up to block_size−1 bytes per block (the
loop recurrence below), a zero-length read ends the stream with nothing
further emitted (in particular empty input produces no tokens), and a final
short read still yields one full framed block — sentinel 0xFF at byte 0 and
the unread tail zero-padded on the right — with no error raised for input
ending mid-block (the transform is total). -/
theorem claim_C8 :
    (∀ n : Nat, ss_encrypt_file n [] = []) ∧
    (∀ (n : Nat) (input : List Nat), 2 ≤ ss_enc_block_size n → input ≠ [] →
      ss_encrypt_file n input =
        ss_encrypt (mpz_import_be (0xFF :: (input.take (ss_enc_block_size n - 1) ++
          List.replicate (ss_enc_block_size n - 1 -
            (input.take (ss_enc_block_size n - 1)).length) 0))) n ::
          ss_encrypt_file n (input.drop (ss_enc_block_size n - 1))) ∧
    (∀ (n : Nat) (input : List Nat), 2 ≤ ss_enc_block_size n → input ≠ [] →
      input.length ≤ ss_enc_block_size n - 1 →
      ss_encrypt_file n input = [ss_encrypt (mpz_import_be (0xFF :: (input ++
        List.replicate (ss_enc_block_size n - 1 - input.length) 0))) n]) :=
  ⟨ss_encrypt_file_nil, fun n input h2 hne => ss_encrypt_file_step n input h2 hne,
    fun n input h2 hne hlen => ss_encrypt_file_single n input h2 hne hlen⟩

/-- Witness for claim C8: modulus 2^34 (block size 2), one-byte input. -/
theorem claim_C8_witness :
    (2 ≤ ss_enc_block_size (2 ^ 34) ∧ ([7] : List Nat) ≠ [] ∧
        [7].length ≤ ss_enc_block_size (2 ^ 34) - 1) ∧
      ss_encrypt_file (2 ^ 34) [7] = [ss_encrypt (mpz_import_be (0xFF :: ([7] ++
        List.replicate (ss_enc_block_size (2 ^ 34) - 1 - [7].length) 0))) (2 ^ 34)] :=
  ⟨⟨by decide, by decide, by decide⟩,
    claim_C8.2.2 (2 ^ 34) [7] (by decide) (by decide) (by decide)⟩

/-- Claim C10: every framed block integer m of the encryption transform
satisfies 0xFF·2^(8·(bs−1)) ≤ m < 2^(8·bs) (most significant byte is the
sentinel 0xFF), so m is nonzero and its minimal big-endian export is exactly
block_size bytes. -/
theorem claim_C10 (n : Nat) (input : List Nat) (hbytes : ∀ b ∈ input, b < 256) (m : Nat)
    (hm : m ∈ ss_encrypt_blocks (ss_enc_block_size n) (input.length + 1) input) :
    0xFF * 2 ^ (8 * (ss_enc_block_size n - 1)) ≤ m ∧ m < 2 ^ (8 * ss_enc_block_size n) ∧
      0 < m ∧ (mpz_export_be m).length = ss_enc_block_size n := by
  obtain ⟨payload, hp, hlen, heq, hbs⟩ :=
    ss_encrypt_blocks_mem (ss_enc_block_size n) (input.length + 1) input m hbytes hm
  subst heq
  have hpow : ∀ k : Nat, (2 : Nat) ^ (8 * k) = 256 ^ k := by
    intro k
    rw [pow_mul]
    norm_num
  refine ⟨?_, ?_, ?_, ?_⟩
  · rw [hpow]
    have h := frame_lower payload
    rw [hlen] at h
    exact h
  · rw [hpow]
    have h := frame_upper payload hp
    rw [hlen] at h
    have hbs1 : ss_enc_block_size n - 1 + 1 = ss_enc_block_size n := by omega
    rwa [hbs1] at h
  · have h := frame_lower payload
    have h2 : 0 < 255 * 256 ^ payload.length := by positivity
    omega
  · rw [mpz_export_be_eq, frame_digits payload hp, List.reverse_reverse,
      List.length_cons, hlen]
    omega

/-- Witness for claim C10: modulus 2^34 (block size 2), input byte 7, block
integer 0xFF07 = 65287. -/
theorem claim_C10_witness :
    ((∀ b ∈ ([7] : List Nat), b < 256) ∧
        65287 ∈ ss_encrypt_blocks (ss_enc_block_size (2 ^ 34)) ([7].length + 1) [7]) ∧
      (0xFF * 2 ^ (8 * (ss_enc_block_size (2 ^ 34) - 1)) ≤ 65287 ∧
        65287 < 2 ^ (8 * ss_enc_block_size (2 ^ 34)) ∧ 0 < 65287 ∧
        (mpz_export_be 65287).length = ss_enc_block_size (2 ^ 34)) :=
  ⟨⟨by decide, by decide⟩, claim_C10 (2 ^ 34) [7] (by decide) 65287 (by decide)⟩

/-- Claim C2 as stated is false: the key pair (p, q) = (251, 16777213) has the
exact shape ss_make_pub produces for total_bits = 40 with p_bits = 8, yet its
encrypt-side block size (from ⌊√n⌋, 20 bits, size 2) differs from its
decrypt-side block size (from pq, 32 bits, size 3). -/
theorem claim_C2_counterexample :
    SSKeyGen 40 8 251 16777213 ∧
      ss_enc_block_size (251 * 251 * 16777213) ≠ ss_dec_block_size (251 * 16777213) := by
  constructor
  · exact ⟨by decide, by decide, by norm_num, by decide, by decide, by norm_num,
      by decide, by decide, by decide, by decide, by decide⟩
  · decide

/-- Claim C2 amended: the two halving-derived block sizes need not be equal;
what holds is that for every key pair with p, q ≥ 1 (and the halving count
within uint16 range) the encrypt-side block size from ⌊√(p²·q)⌋ is at most
the decrypt-side block size from p·q. -/
theorem claim_C2_amended (p q : Nat) (hp : 1 ≤ p) (hq : 1 ≤ q)
    (hnw : bit_halvings (p * q) ≤ 65535) :
    ss_enc_block_size (p * p * q) ≤ ss_dec_block_size (p * q) := by
  have hsq : mpz_sqrt (p * p * q) ≤ p * q := by
    rw [mpz_sqrt_eq_sqrt]
    have hle : p * p * q ≤ (p * q) * (p * q) := by
      have h : (p * q) * (p * q) = (p * p * q) * q := by ring
      rw [h]
      exact Nat.le_mul_of_pos_right _ (by omega)
    calc Nat.sqrt (p * p * q) ≤ Nat.sqrt ((p * q) * (p * q)) := Nat.sqrt_le_sqrt hle
      _ = p * q := Nat.sqrt_eq (p * q)
  have hbh_mono : bit_halvings (mpz_sqrt (p * p * q)) ≤ bit_halvings (p * q) := by
    rw [bit_halvings_eq_size, bit_halvings_eq_size]
    exact Nat.size_le_size hsq
  have hsq1 : 1 ≤ bit_halvings (mpz_sqrt (p * p * q)) := by
    rw [bit_halvings_eq_size]
    refine Nat.size_pos.mpr ?_
    rw [mpz_sqrt_eq_sqrt, Nat.sqrt_pos]
    positivity
  have hd1 : 1 ≤ bit_halvings (p * q) := by
    rw [bit_halvings_eq_size]
    exact Nat.size_pos.mpr (by positivity)
  rw [ss_enc_block_size, ss_dec_block_size,
    block_size_of_eq _ hsq1 (le_trans hbh_mono hnw), block_size_of_eq _ hd1 hnw]
  exact Nat.div_le_div_right (by omega)

/-- Witness for the amended claim C2 at p = q = 1. -/
theorem claim_C2_amended_witness :
    (1 ≤ 1 ∧ bit_halvings (1 * 1) ≤ 65535) ∧
      ss_enc_block_size (1 * 1 * 1) ≤ ss_dec_block_size (1 * 1) :=
  ⟨⟨le_rfl, by decide⟩, claim_C2_amended 1 1 le_rfl le_rfl (by decide)⟩

/-- Claim C4 (documenting the code bug): on the tokenised ciphertext stream
["a", malformed], with private key d = 7, pq = 33, the decrypt loop never
terminates no matter how much fuel it gets: the C code breaks only when
gmp_fscanf returns −1 (end of input), while a token that fails to parse as hex
yields 0 and is not consumed, so processing never stops at the malformed
token and the output is never just the blocks decrypted before the failure. -/
theorem claim_C4_divergence :
    ∀ fuel : Nat, ss_decrypt_file_loop 7 33 fuel 0 [some 10, none] [] = none := by
  intro fuel
  cases fuel with
  | zero => rfl
  | succ f =>
    show ss_decrypt_file_loop 7 33 f 10 [none]
      (([] : List Nat) ++ ss_write_block (ss_decrypt 10 7 33)) = none
    exact ss_decrypt_file_loop_stuck 7 33 f 10 _ []

end SS
